import Mathlib

/-!
Shallow embedding of `src/temgymbasic/utils.py` (TemGym): ray-state
initialization, concentric-ring beam sampling, the segmented in-place
cumulative sum, random disc sampling, the pixel-coordinate transform and the
wavelength/voltage formulas.  Machine floats are modelled by real numbers;
fallible array accesses are modelled by `Option` (`none` = out-of-bounds
access, which raises `IndexError` in numpy and is unchecked under numba).
-/

namespace TemGym

/-- Loop body of `multi_cumsum_inplace`, iterating over `values[1:]`.
State carried between iterations: the (already updated) previous buffer
element `prev`, the partition index `partIdx`, the values
`current_part_len` and `part_count`.  Returns the updated buffer tail, or
`none` when `partitions` is indexed out of bounds. -/
def mcsLoop {α : Type} [Add α] (partitions : List ℤ) (start : α) :
    List α → α → ℕ → ℤ → ℤ → Option (List α)
  | [], _, _, _, _ => some []
  | v :: rest, prev, partIdx, currentPartLen, partCount =>
    if currentPartLen = partCount then
      match partitions[partIdx + 1]? with
      | none => none
      | some nextLen =>
        (mcsLoop partitions start rest start (partIdx + 1) nextLen 0).map
          (fun out => start :: out)
    else
      (mcsLoop partitions start rest (v + prev) partIdx currentPartLen (partCount + 1)).map
        (fun out => (v + prev) :: out)

/-- Embedding of `multi_cumsum_inplace(values, partitions, start)`.  The
source first reads `partitions[0]`, then writes `values[0] = start`, then
runs the loop over indices `1 .. values.size - 1`; the returned list is the
final buffer contents. -/
def multi_cumsum_inplace {α : Type} [Add α] (values : List α) (partitions : List ℤ)
    (start : α) : Option (List α) :=
  match partitions[0]?, values with
  | none, _ => none
  | some _, [] => none
  | some len0, _ :: rest =>
    (mcsLoop partitions start rest start 0 len0 0).map (fun out => start :: out)

/-- Cumulative sum of one segment as the spec words it: the first element
becomes `start`, each subsequent element becomes the previous element plus
its original delta. -/
def segRebuild {α : Type} [Add α] (start : α) : List α → List α
  | [] => []
  | _ :: deltas => List.scanl (fun a d => a + d) start deltas

/-- Splits a buffer into contiguous segments of lengths `partitions[0]`,
`partitions[1]`, .... -/
def splitParts {α : Type} : List ℤ → List α → List (List α)
  | [], _ => []
  | p :: ps, vs => vs.take p.toNat :: splitParts ps (vs.drop p.toNat)

/-- Modelled from the spec (for comparison with `multi_cumsum_inplace`):
within each segment the values become a cumulative sum of the original
per-element deltas restarting from `start` at every segment boundary. -/
def multi_cumsum_spec {α : Type} [Add α] (values : List α) (partitions : List ℤ)
    (start : α) : List α :=
  ((splitParts partitions values).map (segRebuild start)).flatten

open Classical in
/-- Embedding of `np.round`: round to nearest integer, ties to even
(numpy banker's rounding; `Int.round` would round ties up instead). -/
noncomputable def npRound (x : ℝ) : ℤ :=
  if (⌊x + 1 / 2⌋ : ℝ) = x + 1 / 2 ∧ Odd ⌊x + 1 / 2⌋ then ⌊x + 1 / 2⌋ - 1 else ⌊x + 1 / 2⌋

/-- Embedding of the ring-count formula in `concentric_rings`:
`max(1, int(np.floor((-1 + np.sqrt(1 + 4 * num_points_approx / np.pi)) / 2)))`. -/
noncomputable def num_rings (num_points_approx : ℕ) : ℤ :=
  max 1 ⌊(-1 + Real.sqrt (1 + 4 * (num_points_approx : ℝ) / Real.pi)) / 2⌋

/-- Embedding of `np.round(2 * np.pi * np.arange(1, num_rings + 1)).astype(int)`. -/
noncomputable def num_points_kth_ring (num_points_approx : ℕ) : List ℤ :=
  (List.range (num_rings num_points_approx).toNat).map
    (fun k : ℕ => npRound (2 * Real.pi * ((k : ℝ) + 1)))

/-- Embedding of `num_points_approx / num_points_kth_ring.sum()` (true division). -/
noncomputable def points_per_unit (num_points_approx : ℕ) : ℝ :=
  num_points_approx / ((num_points_kth_ring num_points_approx).sum : ℝ)

/-- Embedding of `np.round(num_points_kth_ring * points_per_unit).astype(int)`. -/
noncomputable def points_per_ring (num_points_approx : ℕ) : List ℤ :=
  (num_points_kth_ring num_points_approx).map
    (fun w : ℤ => npRound ((w : ℝ) * points_per_unit num_points_approx))

/-- Embedding of `np.linspace(a, b, num, endpoint=True)`. -/
noncomputable def linspace (a b : ℝ) (num : ℕ) : List ℝ :=
  (List.range num).map (fun i : ℕ => a + (b - a) * (i : ℝ) / ((num : ℝ) - 1))

/-- Embedding of `np.linspace(0, radius, num_rings + 1, endpoint=True)[1:]`,
where `num_rings` has been recomputed as `num_points_kth_ring.size`. -/
noncomputable def ring_radii (num_points_approx : ℕ) (radius : ℝ) : List ℝ :=
  (linspace 0 radius ((num_points_kth_ring num_points_approx).length + 1)).drop 1

/-- Embedding of `np.repeat(xs, counts)` along the last axis for a 1-D row:
element `xs[i]` is repeated `counts[i]` times (negative counts are an error
in numpy; `Int.toNat` clamps them to 0, and all counts used here are
positive). -/
def npRepeat {α : Type} (xs : List α) (counts : List ℤ) : List α :=
  ((xs.zip counts).map (fun vc => List.replicate vc.2.toNat vc.1)).flatten

/-- Embedding of `concentric_rings(num_points_approx, radius)`: returns
`(y, x) = (all_radii * sin(all_angles), all_radii * cos(all_angles))`, or
`none` when the `multi_cumsum_inplace` call accesses out of bounds. -/
noncomputable def concentric_rings (num_points_approx : ℕ) (radius : ℝ) :
    Option (List ℝ × List ℝ) :=
  let ppr := points_per_ring num_points_approx
  let radii := ring_radii num_points_approx radius
  let div_angle := ppr.map (fun p : ℤ => 2 * Real.pi / (p : ℝ))
  let all_radii := npRepeat radii ppr
  (multi_cumsum_inplace (npRepeat div_angle ppr) ppr 0).map
    (fun all_angles =>
      (List.zipWith (fun r θ => r * Real.sin θ) all_radii all_angles,
       List.zipWith (fun r θ => r * Real.cos θ) all_radii all_angles))

/-- Embedding of `initial_r(num_rays)`: a 5 × num_rays matrix of zeros
(rows: x, theta_x, y, theta_y, 1) whose row 4 is then set to 1. -/
def initial_r (num_rays : ℕ) : Fin 5 → List ℝ :=
  Function.update (fun _ : Fin 5 => List.replicate num_rays 0) 4
    (List.replicate num_rays 1)

/-- Embedding of `int(num * 1.28)` — the number of candidate points drawn by
`random_coords` (the source comment notes 1.28 approximates `4 / np.pi`;
Python `int` truncates, and the value is nonnegative, so this is a floor). -/
noncomputable def n_candidates (num : ℕ) : ℕ := (⌊(num : ℝ) * 1.28⌋).toNat

/-- Modelled from the spec (for comparison with `n_candidates`): the spec
claims `ceil(num * 1.2732)` candidate points are drawn. -/
noncomputable def n_candidates_spec (num : ℕ) : ℤ := ⌈(num : ℝ) * 1.2732⌉

open Classical in
/-- The retention test of `random_coords`: keep a candidate `(y, x)` when
`sqrt(y^2 + x^2) < max_r`. -/
noncomputable def keep_mask (max_r : ℝ) (p : ℝ × ℝ) : Bool :=
  decide (Real.sqrt (p.1 ^ 2 + p.2 ^ 2) < max_r)

/-- Embedding of `random_coords(num, max_r, with_radii)`.  The uniform draw
from `[-max_r, max_r]^2` is abstracted by the oracle `draw`, applied to the
requested candidate count; `with_radii` is accepted and ignored, as in the
source.  Returns the `(y, x)` columns of the retained candidates. -/
noncomputable def random_coords (num : ℕ) (max_r : ℝ)
    (draw : ℕ → List (ℝ × ℝ)) (with_radii : Bool) : List ℝ × List ℝ :=
  let yx := (draw (n_candidates num)).filter (keep_mask max_r)
  (yx.map Prod.fst, yx.map Prod.snd)

/-- Embedding of `circular_beam(num_rays_approx, outer_radius, random)`:
samples `(y, x)` and sets row 0 = x, row 2 = y of the initial ray matrix. -/
noncomputable def circular_beam (num_rays_approx : ℕ) (outer_radius : ℝ)
    (random : Bool) (draw : ℕ → List (ℝ × ℝ)) : Option (Fin 5 → List ℝ) :=
  (if random then some (random_coords num_rays_approx outer_radius draw false)
   else concentric_rings num_rays_approx outer_radius).map
    (fun yx => Function.update (Function.update (initial_r yx.1.length) 0 yx.2) 2 yx.1)

/-- Embedding of `point_beam(num_rays_approx, semiangle, random)`: samples
`(y, x)` and sets row 1 = y, row 3 = x (the axis-swapped mapping). -/
noncomputable def point_beam (num_rays_approx : ℕ) (semiangle : ℝ)
    (random : Bool) (draw : ℕ → List (ℝ × ℝ)) : Option (Fin 5 → List ℝ) :=
  (if random then some (random_coords num_rays_approx semiangle draw true)
   else concentric_rings num_rays_approx semiangle).map
    (fun yx => Function.update (Function.update (initial_r yx.1.length) 1 yx.1) 3 yx.2)

/-- Embedding of `_flip_y()`. -/
noncomputable def _flip_y : Matrix (Fin 2) (Fin 2) ℝ := !![-1, 0; 0, 1]

/-- Embedding of `_identity()` (`np.eye(2)`). -/
noncomputable def _identity : Matrix (Fin 2) (Fin 2) ℝ := 1

/-- Embedding of `_rotate(radians)` (y, x convention). -/
noncomputable def _rotate (radians : ℝ) : Matrix (Fin 2) (Fin 2) ℝ :=
  !![Real.cos radians, Real.sin radians; -Real.sin radians, Real.cos radians]

/-- Embedding of `_rotate_deg(degrees)`. -/
noncomputable def _rotate_deg (degrees : ℝ) : Matrix (Fin 2) (Fin 2) ℝ :=
  _rotate (Real.pi / 180 * degrees)

/-- Embedding of `get_pixel_coords` for a single `(y, x)` ray pair (the
source applies the same transform elementwise over arrays).  Returns
`(pixel_coords_x, pixel_coords_y)`. -/
noncomputable def get_pixel_coords (rays_x rays_y : ℝ) (shape : ℕ × ℕ)
    (pixel_size : ℝ) (flip_y : Bool) (scan_rotation : ℝ) : ℝ × ℝ :=
  let transform0 := if flip_y then _flip_y else _identity
  let transform := _rotate_deg scan_rotation * transform0
  let transformed := Matrix.vecMul ![rays_y, rays_x] transform
  (transformed 1 / pixel_size + ((shape.2 / 2 : ℕ) : ℝ),
   transformed 0 / pixel_size + ((shape.1 / 2 : ℕ) : ℝ))

/-- CODATA value of the elementary charge (`scipy.constants.e`), coulombs. -/
noncomputable def e : ℝ := 1.602176634e-19

/-- CODATA value of the electron mass (`scipy.constants.m_e`), kilograms. -/
noncomputable def m_e : ℝ := 9.1093837015e-31

/-- CODATA value of the Planck constant (`scipy.constants.h`), joule-seconds. -/
noncomputable def h : ℝ := 6.62607015e-34

/-- Embedding of `calculate_wavelength(phi_0)`:
`h / (2 * abs(e) * m_e * phi_0) ** (1 / 2)` (real power). -/
noncomputable def calculate_wavelength (phi_0 : ℝ) : ℝ :=
  h / (2 * |e| * m_e * phi_0) ^ ((1 : ℝ) / 2)

/-- Embedding of `calculate_phi_0(wavelength)`:
`h ** 2 / (2 * wavelength ** 2 * abs(e) * m_e)`. -/
noncomputable def calculate_phi_0 (wavelength : ℝ) : ℝ :=
  h ^ 2 / (2 * wavelength ^ 2 * |e| * m_e)

lemma mcsLoop_length {α : Type} [Add α] (partitions : List ℤ) (start : α) :
    ∀ (rest : List α) (prev : α) (partIdx : ℕ) (cpl pc : ℤ) (out : List α),
      mcsLoop partitions start rest prev partIdx cpl pc = some out →
      out.length = rest.length := by
  intro rest
  induction rest with
  | nil =>
    intro prev partIdx cpl pc out hout
    simp [mcsLoop] at hout
    simp [← hout]
  | cons v rest ih =>
    intro prev partIdx cpl pc out hout
    rw [mcsLoop] at hout
    split at hout
    · rcases hnext : partitions[partIdx + 1]? with _ | nextLen
      · rw [hnext] at hout; simp at hout
      · rw [hnext] at hout
        simp only [Option.map_eq_some'] at hout
        obtain ⟨out', hout', rfl⟩ := hout
        simp [ih _ _ _ _ _ hout']
    · simp only [Option.map_eq_some'] at hout
      obtain ⟨out', hout', rfl⟩ := hout
      simp [ih _ _ _ _ _ hout']

lemma mcsLoop_isSome {α : Type} [Add α] (partitions : List ℤ) (start : α)
    (hpos : ∀ p ∈ partitions, 1 ≤ p) :
    ∀ (rest : List α) (prev : α) (partIdx : ℕ) (cpl pc : ℤ),
      partitions[partIdx]? = some cpl → pc ≤ cpl →
      (rest.length : ℤ) ≤ (cpl - pc) +
        ((partitions.drop (partIdx + 1)).sum + (partitions.drop (partIdx + 1)).length) →
      (mcsLoop partitions start rest prev partIdx cpl pc).isSome := by
  intro rest
  induction rest with
  | nil =>
    intro prev partIdx cpl pc _ _ _
    simp [mcsLoop]
  | cons v rest ih =>
    intro prev partIdx cpl pc hget hle hbound
    rw [mcsLoop]
    split
    · rename_i heq
      subst heq
      have hdrop_ne : partitions.drop (partIdx + 1) ≠ [] := by
        intro hnil
        rw [hnil] at hbound
        simp at hbound
        omega
      have hlt : partIdx + 1 < partitions.length := by
        by_contra hge
        exact hdrop_ne (List.drop_eq_nil_of_le (by omega))
      have hnext : partitions[partIdx + 1]? = some partitions[partIdx + 1] :=
        List.getElem?_eq_getElem hlt
      rw [hnext]
      have hcons : partitions.drop (partIdx + 1) =
          partitions[partIdx + 1] :: partitions.drop (partIdx + 2) :=
        List.drop_eq_getElem_cons hlt
      have hmem : partitions[partIdx + 1] ∈ partitions := List.getElem_mem hlt
      have hbound' : (rest.length : ℤ) ≤ (partitions[partIdx + 1] - 0) +
          ((partitions.drop (partIdx + 2)).sum + (partitions.drop (partIdx + 2)).length) := by
        rw [hcons] at hbound
        simp only [List.sum_cons, List.length_cons] at hbound
        push_cast at hbound ⊢
        omega
      have := ih start (partIdx + 1) partitions[partIdx + 1] 0 hnext
        (by have := hpos _ hmem; omega) hbound'
      simpa using this
    · rename_i hne
      have hlt : pc < cpl := lt_of_le_of_ne hle (fun h => hne h.symm)
      have hbound' : (rest.length : ℤ) ≤ (cpl - (pc + 1)) +
          ((partitions.drop (partIdx + 1)).sum + (partitions.drop (partIdx + 1)).length) := by
        simp only [List.length_cons] at hbound
        omega
      have := ih (v + prev) partIdx cpl (pc + 1) hget hlt hbound'
      simpa using this

/-- For positive partitions summing to the buffer length, the embedded
`multi_cumsum_inplace` completes without any out-of-bounds access and
preserves the buffer length. -/
lemma multi_cumsum_valid {α : Type} [Add α] (values : List α) (partitions : List ℤ)
    (start : α) (hlen : 1 ≤ values.length) (hpos : ∀ p ∈ partitions, 1 ≤ p)
    (hsum : partitions.sum = (values.length : ℤ)) :
    ∃ out, multi_cumsum_inplace values partitions start = some out ∧
      out.length = values.length := by
  obtain ⟨p0, ps, rfl⟩ : ∃ p0 ps, partitions = p0 :: ps := by
    cases partitions with
    | nil => simp at hsum; omega
    | cons p0 ps => exact ⟨p0, ps, rfl⟩
  obtain ⟨v0, rest, rfl⟩ : ∃ v0 rest, values = v0 :: rest := by
    cases values with
    | nil => simp at hlen
    | cons v0 rest => exact ⟨v0, rest, rfl⟩
  have hget : (p0 :: ps)[0]? = some p0 := by simp
  have hps_len : (0 : ℤ) ≤ ps.length := by positivity
  have hbound : (rest.length : ℤ) ≤ (p0 - 0) +
      (((p0 :: ps).drop 1).sum + ((p0 :: ps).drop 1).length) := by
    simp only [List.drop_one, List.tail_cons]
    have : (rest.length : ℤ) = p0 + ps.sum - 1 := by
      simp at hsum
      omega
    omega
  have hsome := mcsLoop_isSome (p0 :: ps) start hpos rest start 0 p0 0 hget
    (by have := hpos p0 (by simp); omega) hbound
  rcases hmcs : mcsLoop (p0 :: ps) start rest start 0 p0 0 with _ | out
  · rw [hmcs] at hsome; simp at hsome
  · refine ⟨start :: out, ?_, ?_⟩
    · simp [multi_cumsum_inplace, hmcs]
    · simp [mcsLoop_length _ _ _ _ _ _ _ _ hmcs]

lemma sub_half_le_npRound (x : ℝ) : x - 1 / 2 ≤ (npRound x : ℝ) := by
  unfold npRound
  split
  · rename_i htie
    push_cast
    rw [htie.1]
    linarith
  · have := Int.lt_floor_add_one (x + 1 / 2)
    linarith

lemma npRound_le_add_half (x : ℝ) : (npRound x : ℝ) ≤ x + 1 / 2 := by
  unfold npRound
  split
  · rename_i htie
    push_cast
    rw [htie.1]
    linarith
  · exact Int.floor_le (x + 1 / 2)

lemma abs_npRound_sub_le (x : ℝ) : |(npRound x : ℝ) - x| ≤ 1 / 2 := by
  rw [abs_le]
  constructor
  · have := npRound_le_add_half x
    linarith [sub_half_le_npRound x]
  · linarith [npRound_le_add_half x, sub_half_le_npRound x]

lemma one_le_npRound {x : ℝ} (hx : 1 ≤ x) : 1 ≤ npRound x := by
  have h := sub_half_le_npRound x
  have h0 : (0 : ℝ) < (npRound x : ℝ) := by linarith
  have : (0 : ℤ) < npRound x := by exact_mod_cast h0
  omega

lemma num_rings_pos (N : ℕ) : 1 ≤ num_rings N := le_max_left 1 _

lemma num_points_kth_ring_length (N : ℕ) :
    (num_points_kth_ring N).length = (num_rings N).toNat := by
  unfold num_points_kth_ring
  rw [List.length_map, List.length_range]

lemma num_points_kth_ring_ne_nil (N : ℕ) : num_points_kth_ring N ≠ [] := by
  have h1 := num_rings_pos N
  have : (num_points_kth_ring N).length ≠ 0 := by
    rw [num_points_kth_ring_length]
    omega
  exact fun hnil => this (by rw [hnil]; rfl)

lemma weights_lower (N : ℕ) : ∀ w ∈ num_points_kth_ring N, (11 / 2 : ℝ) ≤ (w : ℝ) := by
  intro w hw
  simp only [num_points_kth_ring, List.mem_map, List.mem_range] at hw
  obtain ⟨k, _, rfl⟩ := hw
  have hπ := Real.pi_gt_d2
  have hk : (1 : ℝ) ≤ (k : ℝ) + 1 := by
    have : (0 : ℝ) ≤ (k : ℝ) := Nat.cast_nonneg k
    linarith
  have hx : (2 * 3.14 : ℝ) ≤ 2 * Real.pi * ((k : ℝ) + 1) := by nlinarith
  have := sub_half_le_npRound (2 * Real.pi * ((k : ℝ) + 1))
  linarith

lemma weights_int_lower (N : ℕ) : ∀ w ∈ num_points_kth_ring N, 6 ≤ w := by
  intro w hw
  have h := weights_lower N w hw
  have : (5 : ℤ) < w := by exact_mod_cast lt_of_lt_of_le (by norm_num : (5 : ℝ) < 11 / 2) h
  omega

lemma list_sum_ge (c : ℤ) : ∀ (l : List ℤ), (∀ x ∈ l, c ≤ x) → c * l.length ≤ l.sum := by
  intro l
  induction l with
  | nil => simp
  | cons x l ih =>
    intro h
    have hx := h x (by simp)
    have hrest := ih (fun y hy => h y (by simp [hy]))
    simp only [List.sum_cons, List.length_cons]
    push_cast
    linarith [hrest]

lemma weights_sum_pos (N : ℕ) : 0 < (num_points_kth_ring N).sum := by
  have h6 := list_sum_ge 6 (num_points_kth_ring N) (weights_int_lower N)
  have hlen : 1 ≤ (num_points_kth_ring N).length := by
    rw [num_points_kth_ring_length]
    have := num_rings_pos N
    omega
  have : (6 : ℤ) ≤ 6 * (num_points_kth_ring N).length := by
    have : (1 : ℤ) ≤ ((num_points_kth_ring N).length : ℤ) := by exact_mod_cast hlen
    nlinarith
  omega

lemma npRound_range_sum_le (n : ℕ) :
    ((((List.range n).map (fun k : ℕ => npRound (2 * Real.pi * ((k : ℝ) + 1)))).sum : ℤ) : ℝ) ≤
      Real.pi * n * (n + 1) + n / 2 := by
  induction n with
  | zero => simp
  | succ n ih =>
    rw [List.range_succ, List.map_append, List.sum_append]
    have hlast := npRound_le_add_half (2 * Real.pi * ((n : ℝ) + 1))
    simp only [List.map_cons, List.map_nil, List.sum_cons, List.sum_nil, add_zero]
    push_cast at ih ⊢
    nlinarith [Real.pi_pos]

lemma weights_sum_upper (N : ℕ) :
    (((num_points_kth_ring N).sum : ℤ) : ℝ) ≤
      Real.pi * ((num_rings N).toNat : ℝ) * (((num_rings N).toNat : ℝ) + 1) +
        ((num_rings N).toNat : ℝ) / 2 := by
  unfold num_points_kth_ring
  exact npRound_range_sum_le (num_rings N).toNat

lemma num_rings_cases (N : ℕ) :
    (num_rings N).toNat = 1 ∨
      Real.pi * ((num_rings N).toNat : ℝ) * (((num_rings N).toNat : ℝ) + 1) ≤ N := by
  set x : ℝ := (-1 + Real.sqrt (1 + 4 * (N : ℝ) / Real.pi)) / 2 with hx
  rcases le_or_lt ⌊x⌋ 1 with hle | hgt
  · left
    have : num_rings N = 1 := by
      unfold num_rings
      rw [← hx]
      omega
    rw [this]
    rfl
  · right
    have hnr : num_rings N = ⌊x⌋ := by
      unfold num_rings
      rw [← hx]
      omega
    have hnn : ((num_rings N).toNat : ℝ) = ((⌊x⌋ : ℤ) : ℝ) := by
      rw [hnr]
      exact_mod_cast Int.toNat_of_nonneg (by omega)
    rw [hnn]
    have h1 : ((⌊x⌋ : ℤ) : ℝ) ≤ x := Int.floor_le x
    have hfpos : (0 : ℝ) < ((⌊x⌋ : ℤ) : ℝ) := by exact_mod_cast hgt.trans_le' (by norm_num)
    have h2 : 2 * ((⌊x⌋ : ℤ) : ℝ) + 1 ≤ Real.sqrt (1 + 4 * N / Real.pi) := by
      rw [hx] at h1
      linarith
    have h3 : (2 * ((⌊x⌋ : ℤ) : ℝ) + 1) ^ 2 ≤ 1 + 4 * N / Real.pi :=
      (Real.le_sqrt' (by linarith)).mp h2
    have hπ := Real.pi_pos
    have hexp : (2 * ((⌊x⌋ : ℤ) : ℝ) + 1) ^ 2 =
        4 * ((⌊x⌋ : ℤ) : ℝ) ^ 2 + 4 * ((⌊x⌋ : ℤ) : ℝ) + 1 := by ring
    rw [hexp] at h3
    have h6 : (4 * ((⌊x⌋ : ℤ) : ℝ) ^ 2 + 4 * ((⌊x⌋ : ℤ) : ℝ)) * Real.pi ≤ 4 * N :=
      calc (4 * ((⌊x⌋ : ℤ) : ℝ) ^ 2 + 4 * ((⌊x⌋ : ℤ) : ℝ)) * Real.pi
          ≤ (4 * N / Real.pi) * Real.pi :=
            mul_le_mul_of_nonneg_right (by linarith) (le_of_lt hπ)
        _ = 4 * N := by field_simp
    have h4 : (((⌊x⌋ : ℤ) : ℝ) ^ 2 + ((⌊x⌋ : ℤ) : ℝ)) * Real.pi ≤ N := by nlinarith [h6]
    calc Real.pi * ((⌊x⌋ : ℤ) : ℝ) * (((⌊x⌋ : ℤ) : ℝ) + 1)
        = (((⌊x⌋ : ℤ) : ℝ) ^ 2 + ((⌊x⌋ : ℤ) : ℝ)) * Real.pi := by ring
      _ ≤ N := h4

lemma points_per_ring_pos (N : ℕ) (hN : 1 ≤ N) : ∀ p ∈ points_per_ring N, 1 ≤ p := by
  intro p hp
  simp only [points_per_ring, List.mem_map] at hp
  obtain ⟨w, hw, rfl⟩ := hp
  apply one_le_npRound
  have hS : (0 : ℝ) < (((num_points_kth_ring N).sum : ℤ) : ℝ) := by
    exact_mod_cast weights_sum_pos N
  have hw55 := weights_lower N w hw
  have hN1 : (1 : ℝ) ≤ (N : ℝ) := by exact_mod_cast hN
  have hkey : (((num_points_kth_ring N).sum : ℤ) : ℝ) ≤ (w : ℝ) * N := by
    rcases num_rings_cases N with h1 | hbound
    · have hlen1 : (num_points_kth_ring N).length = 1 := by
        rw [num_points_kth_ring_length, h1]
      obtain ⟨a, ha⟩ := List.length_eq_one.mp hlen1
      rw [ha] at hw ⊢
      simp only [List.mem_singleton] at hw
      subst hw
      simp only [List.sum_cons, List.sum_nil, add_zero]
      nlinarith [hw55]
    · have hup := weights_sum_upper N
      have hlen1 : (1 : ℝ) ≤ ((num_rings N).toNat : ℝ) := by
        have h := num_rings_pos N
        have h' : 1 ≤ (num_rings N).toNat := by omega
        exact_mod_cast h'
      have hπ3 := Real.pi_gt_three
      have hc0 : (0 : ℝ) ≤ ((num_rings N).toNat : ℝ) := by linarith
      have hprod : (0 : ℝ) ≤ ((num_rings N).toNat : ℝ) * (((num_rings N).toNat : ℝ) + 1) := by
        nlinarith
      have h2 : 3 * (((num_rings N).toNat : ℝ) * (((num_rings N).toNat : ℝ) + 1)) ≤
          Real.pi * ((num_rings N).toNat : ℝ) * (((num_rings N).toNat : ℝ) + 1) := by
        nlinarith [hprod, hπ3]
      have hn_le : 6 * ((num_rings N).toNat : ℝ) ≤ (N : ℝ) := by nlinarith [hbound, h2, hlen1]
      have hwN : (11 / 2 : ℝ) * N ≤ (w : ℝ) * N :=
        mul_le_mul_of_nonneg_right hw55 (by positivity)
      linarith [hup, hbound, hn_le, hwN]
  have heq : (w : ℝ) * points_per_unit N =
      ((w : ℝ) * N) / (((num_points_kth_ring N).sum : ℤ) : ℝ) := by
    unfold points_per_unit
    ring
  rw [heq, one_le_div hS]
  exact hkey

lemma list_abs_npRound_sum (l : List ℝ) :
    |(((l.map npRound).sum : ℤ) : ℝ) - l.sum| ≤ l.length / 2 := by
  induction l with
  | nil => simp
  | cons x l ih =>
    simp only [List.map_cons, List.sum_cons, List.length_cons]
    have hx := abs_npRound_sub_le x
    have hsplit : ((npRound x + (l.map npRound).sum : ℤ) : ℝ) - (x + l.sum) =
        ((npRound x : ℝ) - x) + ((((l.map npRound).sum : ℤ) : ℝ) - l.sum) := by
      push_cast
      ring
    rw [hsplit]
    have hlen : ((l.length + 1 : ℕ) : ℝ) = (l.length : ℝ) + 1 := by push_cast; ring
    rw [hlen]
    have habs := abs_add ((npRound x : ℝ) - x)
      ((((l.map npRound).sum : ℤ) : ℝ) - l.sum)
    linarith

lemma list_sum_map_mul (l : List ℤ) (c : ℝ) :
    (l.map (fun w : ℤ => (w : ℝ) * c)).sum = ((l.sum : ℤ) : ℝ) * c := by
  induction l with
  | nil => simp
  | cons x l ih =>
    simp only [List.map_cons, List.sum_cons, ih]
    push_cast
    ring

lemma points_per_ring_sum_dev (N : ℕ) :
    |(points_per_ring N).sum - (N : ℤ)| ≤ num_rings N := by
  have hS : (0 : ℝ) < (((num_points_kth_ring N).sum : ℤ) : ℝ) := by
    exact_mod_cast weights_sum_pos N
  have hppr : points_per_ring N =
      ((num_points_kth_ring N).map
        (fun w : ℤ => (w : ℝ) * points_per_unit N)).map npRound := by
    unfold points_per_ring
    rw [List.map_map]
    rfl
  set xs : List ℝ :=
    (num_points_kth_ring N).map (fun w : ℤ => (w : ℝ) * points_per_unit N) with hxs
  have hxs_sum : xs.sum = (N : ℝ) := by
    rw [hxs, list_sum_map_mul]
    unfold points_per_unit
    rw [mul_comm]
    exact div_mul_cancel₀ _ (ne_of_gt hS)
  have hxs_len : xs.length = (num_points_kth_ring N).length := by
    rw [hxs, List.length_map]
  have hdev := list_abs_npRound_sum xs
  rw [hxs_sum, hxs_len] at hdev
  have hlen_nr : ((num_points_kth_ring N).length : ℝ) = ((num_rings N : ℤ) : ℝ) := by
    rw [num_points_kth_ring_length]
    have h1 := num_rings_pos N
    have : ((num_rings N).toNat : ℤ) = num_rings N := Int.toNat_of_nonneg (by omega)
    exact_mod_cast congrArg (fun z : ℤ => (z : ℝ)) this
  rw [hlen_nr] at hdev
  have hcast : |((points_per_ring N).sum : ℝ) - (N : ℝ)| ≤ ((num_rings N : ℤ) : ℝ) := by
    rw [hppr]
    have h1 := num_rings_pos N
    have h1' : (1 : ℝ) ≤ ((num_rings N : ℤ) : ℝ) := by exact_mod_cast h1
    calc |(((xs.map npRound).sum : ℤ) : ℝ) - (N : ℝ)| ≤ ((num_rings N : ℤ) : ℝ) / 2 := hdev
      _ ≤ ((num_rings N : ℤ) : ℝ) := by linarith
  have hgoal : ((|(points_per_ring N).sum - (N : ℤ)| : ℤ) : ℝ) ≤ ((num_rings N : ℤ) : ℝ) := by
    push_cast
    push_cast at hcast
    exact hcast
  exact_mod_cast hgoal

lemma num_points_kth_ring_length_pos (N : ℕ) : 1 ≤ (num_points_kth_ring N).length := by
  rw [num_points_kth_ring_length]
  have := num_rings_pos N
  omega

lemma ring_radii_eq (N : ℕ) (R : ℝ) :
    ring_radii N R = (List.range (num_points_kth_ring N).length).map
      (fun k : ℕ => R * ((k : ℝ) + 1) / ((num_points_kth_ring N).length : ℝ)) := by
  unfold ring_radii linspace
  rw [List.range_succ_eq_map]
  simp only [List.map_cons, List.map_map, List.drop_succ_cons, List.drop_zero]
  apply List.map_congr_left
  intro k _
  simp only [Function.comp_apply, Nat.succ_eq_add_one]
  push_cast
  ring

lemma ring_radii_mem (N : ℕ) (R : ℝ) (hR : 0 < R) :
    ∀ r ∈ ring_radii N R, 0 ≤ r ∧ r ≤ R := by
  intro r hr
  rw [ring_radii_eq] at hr
  simp only [List.mem_map, List.mem_range] at hr
  obtain ⟨k, hk, rfl⟩ := hr
  have hL : (0 : ℝ) < ((num_points_kth_ring N).length : ℝ) := by
    exact_mod_cast num_points_kth_ring_length_pos N
  constructor
  · positivity
  · rw [div_le_iff₀ hL]
    have hk1 : (k : ℝ) + 1 ≤ ((num_points_kth_ring N).length : ℝ) := by
      exact_mod_cast Nat.succ_le_of_lt hk
    nlinarith

lemma ring_radii_pairwise (N : ℕ) (R : ℝ) (hR : 0 < R) :
    (ring_radii N R).Pairwise (· < ·) := by
  rw [ring_radii_eq]
  have hL : (0 : ℝ) < ((num_points_kth_ring N).length : ℝ) := by
    exact_mod_cast num_points_kth_ring_length_pos N
  refine List.Pairwise.map _ ?_ (List.pairwise_lt_range _)
  intro a b hab
  have hcast : (a : ℝ) < (b : ℝ) := by exact_mod_cast hab
  calc R * ((a : ℝ) + 1) / ((num_points_kth_ring N).length : ℝ)
      = (R / ((num_points_kth_ring N).length : ℝ)) * ((a : ℝ) + 1) := by ring
    _ < (R / ((num_points_kth_ring N).length : ℝ)) * ((b : ℝ) + 1) := by
        apply mul_lt_mul_of_pos_left (by linarith) (by positivity)
    _ = R * ((b : ℝ) + 1) / ((num_points_kth_ring N).length : ℝ) := by ring

lemma ring_radii_getLast (N : ℕ) (R : ℝ) : (ring_radii N R).getLast? = some R := by
  rw [ring_radii_eq]
  obtain ⟨m, hm⟩ : ∃ m, (num_points_kth_ring N).length = m + 1 :=
    ⟨(num_points_kth_ring N).length - 1, by have := num_points_kth_ring_length_pos N; omega⟩
  rw [hm, List.range_succ, List.map_append, List.map_cons, List.map_nil,
    List.getLast?_concat]
  congr 1
  have hm0 : ((m : ℝ) + 1) ≠ 0 := by positivity
  push_cast
  field_simp

lemma npRepeat_cons {α : Type} (x : α) (xs : List α) (c : ℤ) (cs : List ℤ) :
    npRepeat (x :: xs) (c :: cs) = List.replicate c.toNat x ++ npRepeat xs cs := by
  simp [npRepeat]

lemma npRepeat_length {α : Type} :
    ∀ (xs : List α) (counts : List ℤ), xs.length = counts.length →
      (npRepeat xs counts).length = (counts.map Int.toNat).sum := by
  intro xs
  induction xs with
  | nil =>
    intro counts hlen
    have : counts = [] := List.length_eq_zero.mp (by simpa using hlen.symm)
    subst this
    simp [npRepeat]
  | cons x xs ih =>
    intro counts hlen
    cases counts with
    | nil => simp at hlen
    | cons c cs =>
      rw [npRepeat_cons, List.length_append, List.length_replicate,
        List.map_cons, List.sum_cons, ih cs (by simpa using hlen)]

lemma npRepeat_mem {α : Type} (xs : List α) (counts : List ℤ) (a : α)
    (ha : a ∈ npRepeat xs counts) : a ∈ xs := by
  unfold npRepeat at ha
  rw [List.mem_flatten] at ha
  obtain ⟨l, hl, hal⟩ := ha
  rw [List.mem_map] at hl
  obtain ⟨⟨v, c⟩, hvc, rfl⟩ := hl
  have hav : a = v := List.eq_of_mem_replicate hal
  subst hav
  exact (List.of_mem_zip hvc).1

lemma list_toNat_sum :
    ∀ (l : List ℤ), (∀ p ∈ l, 0 ≤ p) → (((l.map Int.toNat).sum : ℕ) : ℤ) = l.sum := by
  intro l
  induction l with
  | nil => simp
  | cons x l ih =>
    intro h
    simp only [List.map_cons, List.sum_cons]
    rw [Nat.cast_add, ih (fun p hp => h p (by simp [hp])),
      Int.toNat_of_nonneg (h x (by simp))]

lemma list_len_le_sum :
    ∀ (l : List ℕ), (∀ p ∈ l, 1 ≤ p) → l.length ≤ l.sum := by
  intro l
  induction l with
  | nil => simp
  | cons x l ih =>
    intro h
    simp only [List.length_cons, List.sum_cons]
    have := ih (fun p hp => h p (by simp [hp]))
    have := h x (by simp)
    omega

lemma zipWith_cos_sin_norm_le (R : ℝ) :
    ∀ (rads angs : List ℝ), (∀ r ∈ rads, 0 ≤ r ∧ r ≤ R) →
      ∀ p ∈ (List.zipWith (fun r θ => r * Real.cos θ) rads angs).zip
          (List.zipWith (fun r θ => r * Real.sin θ) rads angs),
        Real.sqrt (p.1 ^ 2 + p.2 ^ 2) ≤ R := by
  intro rads
  induction rads with
  | nil => simp
  | cons r rads ih =>
    intro angs hrad p hp
    cases angs with
    | nil => simp at hp
    | cons θ angs =>
      simp only [List.zipWith_cons_cons, List.zip_cons_cons, List.mem_cons] at hp
      rcases hp with rfl | hp
      · have h1 : (r * Real.cos θ) ^ 2 + (r * Real.sin θ) ^ 2 = r ^ 2 :=
          calc (r * Real.cos θ) ^ 2 + (r * Real.sin θ) ^ 2
              = r ^ 2 * (Real.sin θ ^ 2 + Real.cos θ ^ 2) := by ring
            _ = r ^ 2 := by rw [Real.sin_sq_add_cos_sq, mul_one]
        have hr := hrad r (by simp)
        rw [h1, Real.sqrt_sq_eq_abs, abs_of_nonneg hr.1]
        exact hr.2
      · exact ih angs (fun r' hr' => hrad r' (by simp [hr'])) p hp

lemma points_per_ring_length (N : ℕ) :
    (points_per_ring N).length = (num_points_kth_ring N).length := by
  unfold points_per_ring
  rw [List.length_map]

lemma ring_radii_length (N : ℕ) (R : ℝ) :
    (ring_radii N R).length = (num_points_kth_ring N).length := by
  rw [ring_radii_eq, List.length_map, List.length_range]

/-- Central fact about `concentric_rings`: for `num_points_approx >= 1` it
succeeds, returns `(y, x)` columns whose common length is
`sum(points_per_ring)`, and (for positive radius) every point lies within
the outer radius. -/
lemma concentric_rings_spec (N : ℕ) (R : ℝ) (hN : 1 ≤ N) :
    ∃ y x, concentric_rings N R = some (y, x) ∧
      ((y.length : ℤ) = (points_per_ring N).sum ∧ x.length = y.length) ∧
      (0 < R → ∀ p ∈ x.zip y, Real.sqrt (p.1 ^ 2 + p.2 ^ 2) ≤ R) := by
  have hpos := points_per_ring_pos N hN
  have hL := num_points_kth_ring_length_pos N
  have hlen_radii : (ring_radii N R).length = (points_per_ring N).length := by
    rw [ring_radii_length, points_per_ring_length]
  have hlen_div : ((points_per_ring N).map
      (fun p : ℤ => 2 * Real.pi / (p : ℝ))).length = (points_per_ring N).length := by
    rw [List.length_map]
  have hbuf_len : (npRepeat ((points_per_ring N).map
      (fun p : ℤ => 2 * Real.pi / (p : ℝ))) (points_per_ring N)).length =
      ((points_per_ring N).map Int.toNat).sum :=
    npRepeat_length _ _ hlen_div
  have hM_pos : 1 ≤ ((points_per_ring N).map Int.toNat).sum := by
    have h1 : ((points_per_ring N).map Int.toNat).length ≤
        ((points_per_ring N).map Int.toNat).sum := by
      apply list_len_le_sum
      intro p hp
      rw [List.mem_map] at hp
      obtain ⟨q, hq, rfl⟩ := hp
      have := hpos q hq
      omega
    rw [List.length_map, points_per_ring_length] at h1
    omega
  have hsum_cast : ((((points_per_ring N).map Int.toNat).sum : ℕ) : ℤ) =
      (points_per_ring N).sum :=
    list_toNat_sum _ (fun p hp => by have := hpos p hp; omega)
  obtain ⟨out, hout, hout_len⟩ := multi_cumsum_valid
    (npRepeat ((points_per_ring N).map (fun p : ℤ => 2 * Real.pi / (p : ℝ)))
      (points_per_ring N))
    (points_per_ring N) 0
    (by rw [hbuf_len]; exact hM_pos)
    hpos
    (by rw [hbuf_len]; exact hsum_cast.symm ▸ hsum_cast)
  have hrad_len : (npRepeat (ring_radii N R) (points_per_ring N)).length =
      ((points_per_ring N).map Int.toNat).sum :=
    npRepeat_length _ _ hlen_radii
  refine ⟨List.zipWith (fun r θ => r * Real.sin θ)
      (npRepeat (ring_radii N R) (points_per_ring N)) out,
    List.zipWith (fun r θ => r * Real.cos θ)
      (npRepeat (ring_radii N R) (points_per_ring N)) out, ?_, ⟨?_, ?_⟩, ?_⟩
  · simp only [concentric_rings]
    rw [hout]
    rfl
  · rw [List.length_zipWith, hrad_len, hout_len, hbuf_len, min_self]
    exact hsum_cast
  · rw [List.length_zipWith, List.length_zipWith]
  · intro hR p hp
    apply zipWith_cos_sin_norm_le R (npRepeat (ring_radii N R) (points_per_ring N)) out
    · intro r hr
      exact ring_radii_mem N R hR r (npRepeat_mem _ _ r hr)
    · exact hp

lemma mcsLoop_no_reset {α : Type} [Add α] (partitions : List ℤ) (start : α) :
    ∀ (rest : List α) (prev : α) (partIdx : ℕ) (cpl pc : ℤ),
      (rest.length : ℤ) ≤ cpl - pc →
      (mcsLoop partitions start rest prev partIdx cpl pc).isSome := by
  intro rest
  induction rest with
  | nil =>
    intro prev partIdx cpl pc _
    simp [mcsLoop]
  | cons v rest ih =>
    intro prev partIdx cpl pc hbound
    rw [mcsLoop]
    split
    · rename_i heq
      subst heq
      simp only [List.length_cons] at hbound
      have : (0 : ℤ) ≤ rest.length := by positivity
      push_cast at hbound
      omega
    · have hbound' : (rest.length : ℤ) ≤ cpl - (pc + 1) := by
        simp only [List.length_cons] at hbound
        push_cast at hbound
        omega
      have := ih (v + prev) partIdx cpl (pc + 1) hbound'
      simpa using this

/-- C1: the claim's per-segment cumulative sum (restart exactly at every
partition boundary) fails: at values = [10, 20, 30, 40], partitions = [2, 2],
start = 0 the code yields [0, 20, 50, 0] because the reset fires one element
late (each segment consumes partitions[k] + 1 slots), while the claimed
semantics — `multi_cumsum_spec` — yields [0, 20, 0, 40]. -/
theorem C1_multi_cumsum_off_by_one :
    multi_cumsum_inplace ([10, 20, 30, 40] : List ℤ) [2, 2] 0 = some [0, 20, 50, 0] ∧
    multi_cumsum_spec ([10, 20, 30, 40] : List ℤ) [2, 2] 0 = [0, 20, 0, 40] ∧
    ([0, 20, 50, 0] : List ℤ) ≠ [0, 20, 0, 40] := by
  refine ⟨by decide, by decide, by decide⟩

/-- C2 counterexample: partitions = [5] does not sum to the buffer length 3,
yet the call completes successfully — no error of any kind (the source
contains no InvalidPartition and performs no validation); it silently
computes a plain cumulative sum. -/
theorem C2_no_error_on_bad_sum :
    (([5] : List ℤ).sum ≠ (([1, 2, 3] : List ℤ).length : ℤ)) ∧
    multi_cumsum_inplace ([1, 2, 3] : List ℤ) [5] 0 = some [0, 2, 5] := by
  refine ⟨by decide, by decide⟩

/-- C2 amended: `multi_cumsum_inplace` performs no partition validation and
raises no InvalidPartition error.  With empty partitions the very first
`partitions[0]` read is out of bounds (modelled as `none`: an IndexError
or unchecked numba access, not a reported InvalidPartition), while with a
first partition entry at least the buffer length the sum mismatch is
silently ignored and the call succeeds. -/
theorem C2_unvalidated_partitions :
    (∀ (values : List ℤ) (start : ℤ), multi_cumsum_inplace values [] start = none) ∧
    (∀ (values : List ℤ) (p : ℤ) (rest : List ℤ) (start : ℤ),
      values ≠ [] → (values.length : ℤ) ≤ p →
      (multi_cumsum_inplace values (p :: rest) start).isSome) := by
  constructor
  · intro values start
    rfl
  · intro values p rest start hne hlen
    obtain ⟨v0, vrest, rfl⟩ : ∃ v0 vrest, values = v0 :: vrest := by
      cases values with
      | nil => exact absurd rfl hne
      | cons v0 vrest => exact ⟨v0, vrest, rfl⟩
    have hb : ((vrest.length : ℤ)) ≤ p - 0 := by
      simp only [List.length_cons] at hlen
      push_cast at hlen
      omega
    have hsome := mcsLoop_no_reset (p :: rest) start vrest start 0 p 0 hb
    rcases hmcs : mcsLoop (p :: rest) start vrest start 0 p 0 with _ | out
    · rw [hmcs] at hsome
      simp at hsome
    · simp [multi_cumsum_inplace, hmcs]

/-- C2 witness: instantiating the amended theorem at concrete inputs. -/
theorem C2_unvalidated_partitions_witness :
    multi_cumsum_inplace ([1, 2] : List ℤ) [] 0 = none ∧
    (multi_cumsum_inplace ([1, 2] : List ℤ) [7] 0).isSome :=
  ⟨C2_unvalidated_partitions.1 [1, 2] 0,
   C2_unvalidated_partitions.2 [1, 2] 7 [] 0 (by decide) (by decide)⟩

/-- C10: with positive partitions summing to the buffer length M >= 1,
`multi_cumsum_inplace` — whose embedding returns `none` exactly when
`partitions` would be indexed out of bounds, buffer accesses being
structural and always in range — completes and preserves the length: in
particular the internal partition index never passes the last entry. -/
theorem C10_no_out_of_bounds {α : Type} [Add α] (values : List α)
    (partitions : List ℤ) (start : α) (hlen : 1 ≤ values.length)
    (hpos : ∀ p ∈ partitions, 1 ≤ p) (hsum : partitions.sum = (values.length : ℤ)) :
    ∃ out, multi_cumsum_inplace values partitions start = some out ∧
      out.length = values.length :=
  multi_cumsum_valid values partitions start hlen hpos hsum

/-- C10 witness: a concrete valid buffer and partition list. -/
theorem C10_no_out_of_bounds_witness :
    ∃ out, multi_cumsum_inplace ([1, 2, 3] : List ℤ) [1, 2] 0 = some out ∧
      out.length = 3 :=
  C10_no_out_of_bounds [1, 2, 3] [1, 2] 0 (by decide) (by decide) (by decide)

/-- C3: for every target point count N >= 1, every entry of
`points_per_ring` is at least 1, so the per-ring angular step
`2 * pi / points_per_ring[k]` never divides by zero (the radius does not
enter this part of the layout). -/
theorem C3_points_per_ring_positive (N : ℕ) (hN : 1 ≤ N) :
    ∀ p ∈ points_per_ring N, 1 ≤ p :=
  points_per_ring_pos N hN

/-- C3 witness: the layout for N = 8 in particular has a positive first
entry. -/
theorem C3_points_per_ring_positive_witness : 1 ≤ (points_per_ring 8).head! := by
  have hne : points_per_ring 8 ≠ [] := by
    have hlen : (points_per_ring 8).length = (num_points_kth_ring 8).length :=
      points_per_ring_length 8
    have h1 := num_points_kth_ring_length_pos 8
    intro hnil
    rw [hnil] at hlen
    simp at hlen
    omega
  exact C3_points_per_ring_positive 8 (by norm_num) _ (List.head!_mem_self hne)

/-- C4: the ring layout satisfies |sum(points_per_ring) - N| <= ring_count,
and ring_radii is strictly increasing with last element exactly the outer
radius R. -/
theorem C4_ring_layout (N : ℕ) (R : ℝ) (hN : 1 ≤ N) (hR : 0 < R) :
    |(points_per_ring N).sum - (N : ℤ)| ≤ num_rings N ∧
    (ring_radii N R).Pairwise (· < ·) ∧
    (ring_radii N R).getLast? = some R :=
  ⟨points_per_ring_sum_dev N, ring_radii_pairwise N R hR, ring_radii_getLast N R⟩

/-- C4 witness: the layout for N = 8, R = 1. -/
theorem C4_ring_layout_witness :
    |(points_per_ring 8).sum - (8 : ℤ)| ≤ num_rings 8 ∧
    (ring_radii 8 1).Pairwise (· < ·) ∧
    (ring_radii 8 1).getLast? = some 1 :=
  C4_ring_layout 8 1 (by norm_num) (by norm_num)

/-- C5: `circular_beam(N, R, random=False)` returns a 5-row matrix in which
every row has `sum(points_per_ring)` columns, row 4 is all ones, rows 1 and
3 are all zeros, and every (row0, row2) column lies within radius R. -/
theorem C5_circular_beam (N : ℕ) (R : ℝ) (draw : ℕ → List (ℝ × ℝ))
    (hN : 1 ≤ N) (hR : 0 < R) :
    ∃ m, circular_beam N R false draw = some m ∧
      (∀ i : Fin 5, ((m i).length : ℤ) = (points_per_ring N).sum) ∧
      (∀ v ∈ m 4, v = 1) ∧ (∀ v ∈ m 1, v = 0) ∧ (∀ v ∈ m 3, v = 0) ∧
      (∀ p ∈ (m 0).zip (m 2), Real.sqrt (p.1 ^ 2 + p.2 ^ 2) ≤ R) := by
  obtain ⟨y, x, hcr, ⟨hylen, hxy⟩, hnorm⟩ := concentric_rings_spec N R hN
  refine ⟨Function.update (Function.update (initial_r y.length) 0 x) 2 y,
    ?_, ?_, ?_, ?_, ?_, ?_⟩
  · rw [show circular_beam N R false draw = (concentric_rings N R).map
      (fun yx => Function.update (Function.update (initial_r yx.1.length) 0 yx.2) 2 yx.1)
      from rfl, hcr]
    rfl
  · intro i
    fin_cases i <;>
      simp [Function.update_apply, initial_r, hxy, hylen]
  · intro v hv
    simp only [Function.update_apply, initial_r, show (4 : Fin 5) ≠ 2 by decide,
      show (4 : Fin 5) ≠ 0 by decide, if_neg, if_pos] at hv
    exact List.eq_of_mem_replicate hv
  · intro v hv
    simp only [Function.update_apply, initial_r, show (1 : Fin 5) ≠ 2 by decide,
      show (1 : Fin 5) ≠ 0 by decide, show (1 : Fin 5) ≠ 4 by decide, if_neg] at hv
    exact List.eq_of_mem_replicate hv
  · intro v hv
    simp only [Function.update_apply, initial_r, show (3 : Fin 5) ≠ 2 by decide,
      show (3 : Fin 5) ≠ 0 by decide, show (3 : Fin 5) ≠ 4 by decide, if_neg] at hv
    exact List.eq_of_mem_replicate hv
  · have h0 : Function.update (Function.update (initial_r y.length) 0 x) 2 y 0 = x := by
      simp [Function.update_apply]
    have h2 : Function.update (Function.update (initial_r y.length) 0 x) 2 y 2 = y := by
      simp [Function.update_apply]
    rw [h0, h2]
    exact hnorm hR

/-- C5 witness: N = 8, R = 1. -/
theorem C5_circular_beam_witness :
    ∃ m, circular_beam 8 1 false (fun _ => []) = some m ∧
      (∀ i : Fin 5, ((m i).length : ℤ) = (points_per_ring 8).sum) ∧
      (∀ v ∈ m 4, v = 1) ∧ (∀ v ∈ m 1, v = 0) ∧ (∀ v ∈ m 3, v = 0) ∧
      (∀ p ∈ (m 0).zip (m 2), Real.sqrt (p.1 ^ 2 + p.2 ^ 2) ≤ 1) :=
  C5_circular_beam 8 1 (fun _ => []) (by norm_num) (by norm_num)

/-- C7: `point_beam(N, semiangle, random=False)` samples `(y, x)` through
`concentric_rings` with the semiangle as radius and sets row 1 = y and
row 3 = x (the axis-swapped mapping), rows 0 and 2 all zeros, row 4 all
ones. -/
theorem C7_point_beam (N : ℕ) (semiangle : ℝ) (draw : ℕ → List (ℝ × ℝ))
    (hN : 1 ≤ N) (hA : 0 < semiangle) :
    ∃ y x m, concentric_rings N semiangle = some (y, x) ∧
      point_beam N semiangle false draw = some m ∧
      m 1 = y ∧ m 3 = x ∧
      (∀ v ∈ m 0, v = 0) ∧ (∀ v ∈ m 2, v = 0) ∧ (∀ v ∈ m 4, v = 1) := by
  obtain ⟨y, x, hcr, _, _⟩ := concentric_rings_spec N semiangle hN
  refine ⟨y, x, Function.update (Function.update (initial_r y.length) 1 y) 3 x,
    hcr, ?_, ?_, ?_, ?_, ?_, ?_⟩
  · rw [show point_beam N semiangle false draw = (concentric_rings N semiangle).map
      (fun yx => Function.update (Function.update (initial_r yx.1.length) 1 yx.1) 3 yx.2)
      from rfl, hcr]
    rfl
  · simp [Function.update_apply]
  · simp [Function.update_apply]
  · intro v hv
    simp only [Function.update_apply, initial_r, show (0 : Fin 5) ≠ 3 by decide,
      show (0 : Fin 5) ≠ 1 by decide, show (0 : Fin 5) ≠ 4 by decide, if_neg] at hv
    exact List.eq_of_mem_replicate hv
  · intro v hv
    simp only [Function.update_apply, initial_r, show (2 : Fin 5) ≠ 3 by decide,
      show (2 : Fin 5) ≠ 1 by decide, show (2 : Fin 5) ≠ 4 by decide, if_neg] at hv
    exact List.eq_of_mem_replicate hv
  · intro v hv
    simp only [Function.update_apply, initial_r, show (4 : Fin 5) ≠ 3 by decide,
      show (4 : Fin 5) ≠ 1 by decide, if_neg, if_pos] at hv
    exact List.eq_of_mem_replicate hv

/-- C7 witness: N = 8, semiangle = 1. -/
theorem C7_point_beam_witness :
    ∃ y x m, concentric_rings 8 1 = some (y, x) ∧
      point_beam 8 1 false (fun _ => []) = some m ∧
      m 1 = y ∧ m 3 = x ∧
      (∀ v ∈ m 0, v = 0) ∧ (∀ v ∈ m 2, v = 0) ∧ (∀ v ∈ m 4, v = 1) :=
  C7_point_beam 8 1 (fun _ => []) (by norm_num) (by norm_num)

/-- C6 counterexample: at num = 10 the code draws int(10 * 1.28) = 12
candidate points, not ceil(10 * 1.2732) = 13 as the claim states. -/
theorem C6_candidate_count_differs :
    n_candidates 10 = 12 ∧ n_candidates_spec 10 = 13 := by
  constructor
  · have hfl : ⌊((10 : ℕ) : ℝ) * 1.28⌋ = 12 := by
      rw [Int.floor_eq_iff]
      norm_num
    unfold n_candidates
    rw [hfl]
    rfl
  · unfold n_candidates_spec
    rw [Int.ceil_eq_iff]
    norm_num

/-- C6 amended: `random_coords` draws `int(num * 1.28)` (= `n_candidates`)
candidates — not `ceil(num * 1.2732)` — and returns, as parallel (y, x)
lists of equal length, exactly the drawn candidates whose radius
`sqrt(y^2 + x^2)` is strictly below max_r; in particular every returned
point satisfies that bound. -/
theorem C6_random_coords_filter (num : ℕ) (max_r : ℝ) (draw : ℕ → List (ℝ × ℝ)) :
    random_coords num max_r draw false =
      (((draw (n_candidates num)).filter (keep_mask max_r)).map Prod.fst,
       ((draw (n_candidates num)).filter (keep_mask max_r)).map Prod.snd) ∧
    (random_coords num max_r draw false).1.length =
      (random_coords num max_r draw false).2.length ∧
    ∀ p ∈ (random_coords num max_r draw false).1.zip
        (random_coords num max_r draw false).2,
      Real.sqrt (p.1 ^ 2 + p.2 ^ 2) < max_r := by
  refine ⟨rfl, by simp [random_coords], ?_⟩
  intro p hp
  unfold random_coords at hp
  simp only at hp
  rw [List.zip_map', List.mem_map] at hp
  obtain ⟨q, hq, rfl⟩ := hp
  have hkeep := (List.mem_filter.mp hq).2
  exact of_decide_eq_true hkeep

/-- C8: with flip_y = False and scan_rotation = 0 the composed transform is
the identity, so `get_pixel_coords` maps (y, x) to
(x / pixel_size + sx // 2, y / pixel_size + sy // 2) with floor division
on the shape. -/
theorem C8_pixel_coords (sy sx : ℕ) (pixel_size y x : ℝ) (hps : 0 < pixel_size) :
    get_pixel_coords x y (sy, sx) pixel_size false 0 =
      (x / pixel_size + ((sx / 2 : ℕ) : ℝ), y / pixel_size + ((sy / 2 : ℕ) : ℝ)) := by
  unfold get_pixel_coords _rotate_deg _rotate _identity
  simp only [Bool.false_eq_true, if_false, mul_zero, Real.cos_zero, Real.sin_zero,
    neg_zero, mul_one]
  rw [← Matrix.one_fin_two, Matrix.vecMul_one]
  simp [Matrix.cons_val_zero, Matrix.cons_val_one, Matrix.head_cons]

/-- C8 witness: shape (10, 10), pixel_size 1 maps (y, x) = (0, 0) to (5, 5). -/
theorem C8_pixel_coords_witness :
    get_pixel_coords 0 0 (10, 10) 1 false 0 = (5, 5) := by
  have hmap := C8_pixel_coords 10 10 1 0 0 (by norm_num)
  norm_num at hmap
  exact hmap

/-- C9: the wavelength and accelerating-voltage formulas are mutual
inverses on positive voltage, exactly over real arithmetic. -/
theorem C9_wavelength_roundtrip (V : ℝ) (hV : 0 < V) :
    calculate_phi_0 (calculate_wavelength V) = V := by
  unfold calculate_phi_0 calculate_wavelength
  have he : (0 : ℝ) < e := by norm_num [e]
  have hm : (0 : ℝ) < m_e := by norm_num [m_e]
  have hh : (0 : ℝ) < h := by norm_num [h]
  rw [abs_of_pos he]
  have htpos : (0 : ℝ) < 2 * e * m_e * V := by positivity
  have hroot : ((2 * e * m_e * V) ^ ((1 : ℝ) / 2)) ^ (2 : ℕ) = 2 * e * m_e * V := by
    rw [← Real.rpow_natCast ((2 * e * m_e * V) ^ ((1 : ℝ) / 2)) 2,
      ← Real.rpow_mul htpos.le]
    norm_num
  rw [div_pow, hroot]
  have hroot_ne : (2 * e * m_e * V) ^ ((1 : ℝ) / 2) ≠ 0 := by
    intro h0
    rw [← hroot, h0] at htpos
    simp at htpos
  field_simp
  ring

/-- C9 witness: a 200-volt round trip. -/
theorem C9_wavelength_roundtrip_witness :
    calculate_phi_0 (calculate_wavelength 200) = 200 :=
  C9_wavelength_roundtrip 200 (by norm_num)

end TemGym
